import Mathlib

/-!
Verification of the face-activity training pipeline.

Shallow embedding of the bespoke logic of
`ml_models/face_activity/model.py` (`load_data`, `apply_augmentation`,
`create_data_generator`) and
`ml_models/face_activity/face_tracking_analysis.py`
(`select_random_walking_sequences`).

Modelling conventions:

* numpy float arrays are modelled over `ℚ`; a coordinate frame is a pair
  `(x, y) : ℚ × ℚ`, a sample is the list of its frames, a label row is a
  list of rationals;
* numpy calls that raise a `ValueError` (`np.max` on an empty array,
  `np.interp` with an empty node array, `np.random.randint` with
  `low >= high`) are modelled with `Option`: `none` is the raised error
  escaping the enclosing function;
* random draws are passed in explicitly as function arguments; a range that
  numpy guarantees for a draw (for example `np.random.uniform(0.8, 1.2)`)
  appears as a hypothesis of the theorems that need it.
-/

/-- One frame of a face-tracking sample: an `(x, y)` coordinate pair. -/
abbrev Frame := ℚ × ℚ

/-- One sample: a time-ordered list of coordinate frames, one row of the
feature tensor of shape `(n_samples, sequence_length, 2)`. -/
abbrev Sample := List Frame

/-- One row of the (one-hot) label tensor. -/
abbrev LabelRow := List ℚ

/-- One JSON record of `face_tracking_data.json`, restricted to the fields
the modelled code reads (`cameraFps` and `timestamp` are never consulted by
`load_data` or `select_random_walking_sequences` and are omitted). -/
structure Record where
  coordinates : Sample
  activityType : String
  sequenceLength : ℕ
  deriving DecidableEq

/-- Model of `np.max` over all entries of a coordinates array (both components of
every frame).  Only meaningful on a nonempty list: `np.max` raises on an
empty array, which callers model with `Option`. -/
def coordMax : Sample → ℚ
  | [] => 0
  | [p] => max p.1 p.2
  | p :: q :: ps => max (max p.1 p.2) (coordMax (q :: ps))

/-- Lines 40–46 of `model.py`: the value `load_data` appends for an accepted
record — `coords / np.max(coords)` when `np.max(coords) > 1.0`, the raw
coordinates otherwise.  `none` models the `ValueError` that `np.max` raises
on an empty coordinate array. -/
def normalizeCoords (cs : Sample) : Option Sample :=
  match cs with
  | [] => none
  | _ :: _ =>
    if 1 < coordMax cs then
      some (cs.map (fun p => (p.1 / coordMax cs, p.2 / coordMax cs)))
    else some cs

/-- The same normalization as a total function (used to state what
`load_data` produces on records with a nonempty coordinate list). -/
def normalizeTotal (cs : Sample) : Sample :=
  if 1 < coordMax cs then cs.map (fun p => (p.1 / coordMax cs, p.2 / coordMax cs))
  else cs

/-- Error-propagating map: a Python `for` loop whose body may raise, building
a list of results; `none` models the exception escaping the loop. -/
def optionMap {α β : Type} (f : α → Option β) : List α → Option (List β)
  | [] => some []
  | a :: l =>
    match f a, optionMap f l with
    | some b, some bs => some (b :: bs)
    | _, _ => none

/-- Model of `load_data` (`model.py` lines 34–49), restricted to the feature tensor
`X` that it builds: keep, in order, the records whose coordinate count
equals their declared `sequenceLength`, normalizing each kept record. -/
def loadFeatures (data : List Record) : Option (List Sample) :=
  optionMap (fun e => normalizeCoords e.coordinates)
    (data.filter (fun e => e.coordinates.length == e.sequenceLength))

/-- Model of `select_random_walking_sequences`
(`face_tracking_analysis.py` lines 15–23).  `random.sample` is abstracted as the argument `sampleFn`; the
returned `Bool` records whether the warning branch was taken. -/
def selectRandomWalkingSequences (sampleFn : List Record → ℕ → List Record)
    (data : List Record) (n : ℕ) : List Record × Bool :=
  let walking := data.filter (fun s => s.activityType == "walking")
  if walking.length < n then (walking, true)
  else (sampleFn walking n, false)

/-! ## Helper lemmas for `load_data` -/

theorem optionMap_eq_some_map {α β : Type} (f : α → Option β) (g : α → β) :
    ∀ l : List α, (∀ a ∈ l, f a = some (g a)) → optionMap f l = some (l.map g) := by
  intro l
  induction l with
  | nil => intro _; rfl
  | cons a l ih =>
    intro h
    have ha := h a (List.mem_cons_self a l)
    have hl := ih (fun b hb => h b (List.mem_cons_of_mem a hb))
    simp [optionMap, ha, hl]

theorem normalizeCoords_eq_total (cs : Sample) (h : cs ≠ []) :
    normalizeCoords cs = some (normalizeTotal cs) := by
  cases cs with
  | nil => exact absurd rfl h
  | cons p ps =>
    by_cases hm : 1 < coordMax (p :: ps) <;>
      simp [normalizeCoords, normalizeTotal, hm]

theorem le_coordMax (cs : Sample) : ∀ p ∈ cs, p.1 ≤ coordMax cs ∧ p.2 ≤ coordMax cs := by
  induction cs with
  | nil => intro p hp; cases hp
  | cons q qs ih =>
    intro p hp
    cases qs with
    | nil =>
      rcases List.mem_cons.mp hp with h | h
      · subst h; exact ⟨le_max_left _ _, le_max_right _ _⟩
      · cases h
    | cons r rs =>
      rcases List.mem_cons.mp hp with h | h
      · subst h
        exact ⟨le_trans (le_max_left _ _) (le_max_left _ _),
               le_trans (le_max_right _ _) (le_max_left _ _)⟩
      · rcases ih p h with ⟨h1, h2⟩
        exact ⟨le_trans h1 (by simp [coordMax]),
               le_trans h2 (by simp [coordMax])⟩

/-! ## C1: `load_data` keeps exactly the records of matching declared length -/

/-- C1 (amended): provided every length-matching record has a nonempty
coordinate list, `load_data` returns the feature tensor obtained by keeping
exactly those records whose coordinate count equals their declared
`sequenceLength`, in order, each normalized; in particular every matching
record is included (after normalization) and every mismatched record is
dropped. -/
theorem loadFeatures_filters_by_declared_length (data : List Record)
    (h : ∀ e ∈ data, e.coordinates.length = e.sequenceLength → e.coordinates ≠ []) :
    ∃ X, loadFeatures data = some X ∧
      X = (data.filter (fun e => e.coordinates.length == e.sequenceLength)).map
            (fun e => normalizeTotal e.coordinates) ∧
      ∀ e ∈ data, e.coordinates.length = e.sequenceLength →
        normalizeTotal e.coordinates ∈ X := by
  refine ⟨_, ?_, rfl, ?_⟩
  · unfold loadFeatures
    apply optionMap_eq_some_map
    intro e he
    rcases List.mem_filter.mp he with ⟨hmem, hpred⟩
    exact normalizeCoords_eq_total _ (h e hmem (by simpa using hpred))
  · intro e he hlen
    exact List.mem_map_of_mem _ (List.mem_filter.mpr ⟨he, by simpa using hlen⟩)

/-- C1 counterexample: the record with an empty coordinate list and declared
length 0 passes the `coords.shape[0] == entry['sequenceLength']` check, but
`load_data` then raises inside `np.max` on the empty array, so no feature
tensor is returned and the matching record is not included in one. -/
theorem loadFeatures_empty_record_cex :
    ¬ ∃ X, loadFeatures [⟨[], "walking", 0⟩] = some X ∧
        normalizeTotal ([] : Sample) ∈ X := by
  rintro ⟨X, hX, -⟩
  simp [loadFeatures, optionMap, normalizeCoords] at hX

/-- Concrete input for the C1 witness: one matching record that needs
rescaling and one record whose coordinate count contradicts its declared
length. -/
def dataC1 : List Record :=
  [⟨[(0, 2)], "walking", 1⟩, ⟨[(0, 0), (0, 0)], "standing", 3⟩]

theorem loadFeatures_filters_witness :
    ∃ X, loadFeatures dataC1 = some X ∧
      X = (dataC1.filter (fun e => e.coordinates.length == e.sequenceLength)).map
            (fun e => normalizeTotal e.coordinates) ∧
      ∀ e ∈ dataC1, e.coordinates.length = e.sequenceLength →
        normalizeTotal e.coordinates ∈ X :=
  loadFeatures_filters_by_declared_length dataC1 (by decide)

/-! ## C5: normalization bounds -/

/-- C5 (amended): an accepted record (necessarily nonempty) whose maximum
entry exceeds 1 and whose entries are all nonnegative is rescaled so that
every entry lies in `[0, 1]`; a nonempty accepted record whose maximum entry
is at most 1 is included without any rescaling.  (The nonnegativity
hypothesis is forced: a negative entry stays negative after division by the
maximum, see the counterexample.) -/
theorem normalizeCoords_bounds (cs : Sample) :
    (1 < coordMax cs → (∀ p ∈ cs, 0 ≤ p.1 ∧ 0 ≤ p.2) →
      ∃ out, normalizeCoords cs = some out ∧
        ∀ q ∈ out, (0 ≤ q.1 ∧ q.1 ≤ 1) ∧ (0 ≤ q.2 ∧ q.2 ≤ 1)) ∧
    (cs ≠ [] → coordMax cs ≤ 1 → normalizeCoords cs = some cs) := by
  constructor
  · intro hmax hpos
    have hne : cs ≠ [] := by
      intro h; subst h; simp [coordMax] at hmax; linarith
    have hm0 : (0 : ℚ) < coordMax cs := lt_trans one_pos hmax
    refine ⟨cs.map (fun p => (p.1 / coordMax cs, p.2 / coordMax cs)), ?_, ?_⟩
    · cases cs with
      | nil => exact absurd rfl hne
      | cons p ps => simp [normalizeCoords, hmax]
    · intro q hq
      rcases List.mem_map.mp hq with ⟨p, hp, rfl⟩
      rcases hpos p hp with ⟨hx, hy⟩
      rcases le_coordMax cs p hp with ⟨hx1, hy1⟩
      exact ⟨⟨div_nonneg hx (le_of_lt hm0), (div_le_one hm0).mpr hx1⟩,
             ⟨div_nonneg hy (le_of_lt hm0), (div_le_one hm0).mpr hy1⟩⟩
  · intro hne hle
    cases cs with
    | nil => exact absurd rfl hne
    | cons p ps => simp [normalizeCoords, not_lt.mpr hle]

/-- C5 counterexample: the record `[(-1, 2)]` is accepted by `load_data`
(length 1 matches), its maximum entry 2 exceeds 1, and after division by the
maximum the first entry is `-1/2`, which does not lie in `[0, 1]`. -/
theorem normalizeCoords_negative_entry_cex :
    loadFeatures [⟨[(-1, 2)], "walking", 1⟩] = some [[(-1/2, 1)]] ∧
      1 < coordMax [(-1, 2)] ∧ ¬ (0 ≤ (-1/2 : ℚ)) := by
  refine ⟨?_, by norm_num [coordMax], by norm_num⟩
  have hmax : coordMax [((-1 : ℚ), (2 : ℚ))] = 2 := by norm_num [coordMax]
  simp [loadFeatures, optionMap, normalizeCoords, hmax]

theorem normalizeCoords_bounds_witness :
    (∃ out, normalizeCoords [((0 : ℚ), (2 : ℚ))] = some out ∧
        ∀ q ∈ out, (0 ≤ q.1 ∧ q.1 ≤ 1) ∧ (0 ≤ q.2 ∧ q.2 ≤ 1)) ∧
      normalizeCoords [((1 : ℚ)/2, (1 : ℚ)/2)] = some [((1 : ℚ)/2, (1 : ℚ)/2)] :=
  ⟨(normalizeCoords_bounds _).1 (by norm_num [coordMax]) (by norm_num),
   (normalizeCoords_bounds _).2 (by simp) (by norm_num [coordMax])⟩

/-! ## C7: degrade-to-available random selection -/

/-- C7: for every data set and requested count `n`, when fewer than `n`
walking sequences exist the selection returns exactly all of them and takes
the warning branch; when at least `n` exist it returns exactly `n`
sequences, all drawn from the walking pool, without warning.  `hlen` and
`hmem` are the guarantees Python's `random.sample(pop, k)` gives for
`k ≤ len(pop)`. -/
theorem selectRandomWalkingSequences_degrades
    (sampleFn : List Record → ℕ → List Record)
    (hlen : ∀ l k, k ≤ l.length → (sampleFn l k).length = k)
    (hmem : ∀ l k, k ≤ l.length → ∀ x ∈ sampleFn l k, x ∈ l)
    (data : List Record) (n : ℕ) :
    ((data.filter (fun s => s.activityType == "walking")).length < n →
      selectRandomWalkingSequences sampleFn data n =
        (data.filter (fun s => s.activityType == "walking"), true)) ∧
    (n ≤ (data.filter (fun s => s.activityType == "walking")).length →
      (selectRandomWalkingSequences sampleFn data n).1.length = n ∧
      (selectRandomWalkingSequences sampleFn data n).2 = false ∧
      ∀ x ∈ (selectRandomWalkingSequences sampleFn data n).1,
        x ∈ data.filter (fun s => s.activityType == "walking")) := by
  constructor
  · intro hlt
    simp [selectRandomWalkingSequences, hlt]
  · intro hge
    have hnlt : ¬ (data.filter (fun s => s.activityType == "walking")).length < n :=
      not_lt.mpr hge
    refine ⟨?_, ?_, ?_⟩
    · simp only [selectRandomWalkingSequences, if_neg hnlt]
      exact hlen _ _ hge
    · simp [selectRandomWalkingSequences, hnlt]
    · simp only [selectRandomWalkingSequences, if_neg hnlt]
      exact hmem _ _ hge

/-- Concrete pool for the C7 witness: three walking sequences and one
standing sequence, mirroring the spec's "requesting 10 from a pool of 3"
scenario. -/
def dataC7 : List Record :=
  [⟨[], "walking", 5⟩, ⟨[], "walking", 6⟩, ⟨[], "standing", 7⟩, ⟨[], "walking", 8⟩]

theorem selectRandomWalkingSequences_witness :
    (selectRandomWalkingSequences (fun l k => l.take k) dataC7 10 =
      (dataC7.filter (fun s => s.activityType == "walking"), true)) ∧
      (selectRandomWalkingSequences (fun l k => l.take k) dataC7 2).1.length = 2 := by
  have hlen : ∀ l : List Record, ∀ k : ℕ, k ≤ l.length → (l.take k).length = k := by
    intro l k h
    simpa using h
  have hmem : ∀ l : List Record, ∀ k : ℕ, k ≤ l.length → ∀ x ∈ l.take k, x ∈ l := by
    intro l k _ x hx
    exact List.mem_of_mem_take hx
  refine ⟨?_, ?_⟩
  · exact (selectRandomWalkingSequences_degrades (fun l k => l.take k) hlen hmem
      dataC7 10).1 (by decide)
  · exact ((selectRandomWalkingSequences_degrades (fun l k => l.take k) hlen hmem
      dataC7 2).2 (by decide)).1

/-! ## Time warping (`apply_augmentation` technique 1, `model.py` lines 83–103) -/

/-- Model of `np.linspace(a, b, m)`: `m` evenly spaced points from `a` to `b`
(endpoints included; for `m = 1` numpy returns `[a]`, for `m = 0` the empty
array). -/
def linspaceQ (a b : ℚ) (m : ℕ) : List ℚ :=
  if m = 1 then [a]
  else (List.range m).map (fun (j : ℕ) => a + (b - a) * (j : ℚ) / ((m : ℚ) - 1))

/-- Model of `np.interp(x, xp, fp)` on the zipped node list (the nodes are strictly
increasing in every use below): constant continuation outside the node
range, linear interpolation between consecutive nodes.  Callers guard the
empty-node case, where numpy raises, with `Option`. -/
def interpPoints (x : ℚ) : List (ℚ × ℚ) → ℚ
  | [] => 0
  | [(_, fy)] => fy
  | (x1, y1) :: (x2, y2) :: rest =>
    if x ≤ x1 then y1
    else if x ≤ x2 then y1 + (y2 - y1) * (x - x1) / (x2 - x1)
    else interpPoints x ((x2, y2) :: rest)

/-- The node count `min(len(warped_steps), len(sample))` used on lines
100–101 of `model.py`, where `len(warped_steps) = int(seq_length *
warp_factor)` (the length of `np.linspace(0, seq_length-1, int(seq_length *
warp_factor))`, and `int` of a nonnegative float is its floor). -/
def warpNodeCount (L : ℕ) (w : ℚ) : ℕ := min (⌊(L : ℚ) * w⌋.toNat) L

/-- The resampling loop of the time-warp technique: each output step `t` of
`np.arange(seq_length)` is interpolated against the `m` nodes
`np.linspace(0, seq_length-1, m)` with values `sample[:m]`, per feature
channel. -/
def warpResample (sample : Sample) (m : ℕ) : Sample :=
  (List.range sample.length).map (fun (t : ℕ) =>
    (interpPoints (t : ℚ) ((linspaceQ 0 ((sample.length : ℚ) - 1) m).zip
        ((sample.take m).map Prod.fst)),
     interpPoints (t : ℚ) ((linspaceQ 0 ((sample.length : ℚ) - 1) m).zip
        ((sample.take m).map Prod.snd))))

/-- One iteration of the time-warp technique (`model.py` lines 84–103) on a
chosen sample: `none` models the `ValueError` that `np.interp` raises when
the node array is empty, which happens exactly when
`min(int(seq_length * warp_factor), seq_length) = 0`. -/
def timeWarpSample (sample : Sample) (w : ℚ) : Option Sample :=
  if warpNodeCount sample.length w = 0 then none
  else some (warpResample sample (warpNodeCount sample.length w))

theorem linspaceQ_length (a b : ℚ) (m : ℕ) : (linspaceQ a b m).length = m := by
  unfold linspaceQ
  by_cases h : m = 1
  · rw [if_pos h, h]
    rfl
  · rw [if_neg h, List.length_map, List.length_range]

theorem warpResample_length (sample : Sample) (m : ℕ) :
    (warpResample sample m).length = sample.length := by
  unfold warpResample
  rw [List.length_map, List.length_range]

/-! ## C4: time-warp output length -/

/-- C4 (amended): for every sample of length at least 2 and every warp
factor in `[0.8, 1.2]`, the time-warp augmentation returns a sample of
exactly the original length, and its interpolation uses
`min(int(seq_length*warp_factor), seq_length) ≤ seq_length` nodes, so no
out-of-range access occurs.  (Length 1 is excluded: there `int(1 * w) = 0`
for `w < 1` and the code raises, see the counterexample.) -/
theorem timeWarp_preserves_length (sample : Sample) (w : ℚ)
    (hL : 2 ≤ sample.length) (hw1 : 4/5 ≤ w) (hw2 : w ≤ 6/5) :
    ∃ out, timeWarpSample sample w = some out ∧ out.length = sample.length ∧
      warpNodeCount sample.length w ≤ sample.length := by
  have hfloor : 1 ≤ ⌊(sample.length : ℚ) * w⌋ := by
    apply Int.le_floor.mpr
    have h2 : (2 : ℚ) ≤ (sample.length : ℚ) := by exact_mod_cast hL
    have : (2 : ℚ) * (4/5) ≤ (sample.length : ℚ) * w := by
      apply mul_le_mul h2 hw1 (by norm_num) (by positivity)
    push_cast
    linarith
  have hm : warpNodeCount sample.length w ≠ 0 := by
    unfold warpNodeCount
    have h1 : 1 ≤ ⌊(sample.length : ℚ) * w⌋.toNat := by omega
    omega
  refine ⟨warpResample sample (warpNodeCount sample.length w), ?_, ?_, ?_⟩
  · simp [timeWarpSample, hm]
  · exact warpResample_length _ _
  · exact min_le_right _ _

/-- C4 counterexample: at sequence length 1 with warp factor `0.8`
(inside the claimed range `[0.8, 1.2]`), `int(1 * 0.8) = 0`, the node array
passed to `np.interp` is empty and the code raises instead of returning a
length-1 sample. -/
theorem timeWarp_length_one_cex :
    timeWarpSample [((0 : ℚ), (0 : ℚ))] (4/5) = none ∧
      ¬ ∃ out, timeWarpSample [((0 : ℚ), (0 : ℚ))] (4/5) = some out ∧
          out.length = 1 := by
  have h : warpNodeCount 1 (4/5) = 0 := by
    norm_num [warpNodeCount]
  constructor
  · simp [timeWarpSample, h]
  · rintro ⟨out, hout, -⟩
    simp [timeWarpSample, h] at hout

/-- Concrete sample for the C4 witness. -/
def sampleC4 : Sample := [(1, 1), (2, 2)]

theorem timeWarp_preserves_length_witness :
    ∃ out, timeWarpSample sampleC4 (4/5) = some out ∧ out.length = sampleC4.length ∧
      warpNodeCount sampleC4.length (4/5) ≤ sampleC4.length :=
  timeWarp_preserves_length sampleC4 (4/5) (by norm_num [sampleC4]) (by norm_num)
    (by norm_num)

/-! ## Interpolation at its own nodes (for C10) -/

theorem interpPoints_at_node (ps : List (ℚ × ℚ)) :
    (ps.map Prod.fst).Pairwise (· < ·) →
      ∀ p ∈ ps, interpPoints p.1 ps = p.2 := by
  induction ps with
  | nil =>
    intro _ p hp
    simp at hp
  | cons q qs ih =>
    obtain ⟨x1, y1⟩ := q
    intro hpair p hp
    cases qs with
    | nil =>
      have hpq : p = (x1, y1) := by simpa using hp
      subst hpq
      simp [interpPoints]
    | cons q2 rest =>
      obtain ⟨x2, y2⟩ := q2
      have h1 : ∀ b ∈ ((x2, y2) :: rest).map Prod.fst, x1 < b :=
        (List.pairwise_cons.mp (by simpa using hpair)).1
      have hpair' : (((x2, y2) :: rest).map Prod.fst).Pairwise (· < ·) :=
        (List.pairwise_cons.mp (by simpa using hpair)).2
      rcases List.mem_cons.mp hp with hpq | hp'
      · subst hpq
        simp [interpPoints]
      · have hx1p : x1 < p.1 := h1 p.1 (List.mem_map_of_mem Prod.fst hp')
        rcases List.mem_cons.mp hp' with hpq | hp''
        · subst hpq
          simp only at hx1p
          have hne : x2 - x1 ≠ 0 := sub_ne_zero.mpr hx1p.ne'
          simp only [interpPoints, if_neg (not_le.mpr hx1p), if_pos le_rfl]
          field_simp
        · have hx2p : x2 < p.1 :=
            (List.pairwise_cons.mp (by simpa using hpair')).1 p.1
              (List.mem_map_of_mem Prod.fst hp'')
          obtain ⟨px, py⟩ := p
          simp only at hx1p hx2p
          simp only [interpPoints, if_neg (not_le.mpr hx1p), if_neg (not_le.mpr hx2p)]
          exact ih hpair' (px, py) hp'

theorem linspaceQ_id (L : ℕ) (hL : 1 ≤ L) :
    linspaceQ 0 ((L : ℚ) - 1) L = (List.range L).map (fun (j : ℕ) => (j : ℚ)) := by
  unfold linspaceQ
  by_cases h : L = 1
  · subst h
    simp [List.range_succ]
  · rw [if_neg h]
    apply List.map_congr_left
    intro j hj
    have hne : (L : ℚ) - 1 ≠ 0 := by
      have : 2 ≤ L := by omega
      have h2 : (2 : ℚ) ≤ (L : ℚ) := by exact_mod_cast this
      intro hc
      have : (L : ℚ) = 1 := by linarith
      linarith
    field_simp

theorem nodes_fst (L : ℕ) (vals : List ℚ) (hvl : vals.length = L) :
    (((List.range L).map (fun (j : ℕ) => (j : ℚ))).zip vals).map Prod.fst =
      (List.range L).map (fun (j : ℕ) => (j : ℚ)) := by
  apply List.map_fst_zip
  simp [hvl]

theorem nodes_pairwise (L : ℕ) :
    ((List.range L).map (fun (j : ℕ) => (j : ℚ))).Pairwise (· < ·) := by
  apply List.Pairwise.map
  · intro a b hab
    exact_mod_cast hab
  · exact List.pairwise_lt_range L

theorem nodes_mem (L : ℕ) (vals : List ℚ) (hvl : vals.length = L) (i : ℕ) (hi : i < L) :
    ((i : ℚ), vals.getD i 0) ∈ ((List.range L).map (fun (j : ℕ) => (j : ℚ))).zip vals := by
  have hzl : (((List.range L).map (fun (j : ℕ) => (j : ℚ))).zip vals).length = L := by
    simp [hvl]
  have hib : i < (((List.range L).map (fun (j : ℕ) => (j : ℚ))).zip vals).length := by
    omega
  have hval : (((List.range L).map (fun (j : ℕ) => (j : ℚ))).zip vals).get ⟨i, hib⟩ =
      ((i : ℚ), vals.getD i 0) := by
    simp only [List.get_eq_getElem, List.getElem_zip, List.getElem_map, List.getElem_range]
    congr 1
    rw [List.getD_eq_getElem _ _ (by omega)]
  rw [← hval]
  exact List.get_mem _ _ hib

theorem warpResample_id (sample : Sample) (hL : 1 ≤ sample.length) :
    warpResample sample sample.length = sample := by
  unfold warpResample
  rw [List.take_length, linspaceQ_id sample.length hL]
  apply List.ext_getElem
  · simp
  · intro i h1 h2
    simp only [List.getElem_map, List.getElem_range]
    have hi : i < sample.length := by simpa using h2
    have hfst : (sample.map Prod.fst).length = sample.length := by simp
    have hsnd : (sample.map Prod.snd).length = sample.length := by simp
    have hm1 := nodes_mem sample.length (sample.map Prod.fst) hfst i hi
    have hm2 := nodes_mem sample.length (sample.map Prod.snd) hsnd i hi
    have e1 := interpPoints_at_node _ (by
      rw [nodes_fst _ _ hfst]; exact nodes_pairwise _) _ hm1
    have e2 := interpPoints_at_node _ (by
      rw [nodes_fst _ _ hsnd]; exact nodes_pairwise _) _ hm2
    simp only at e1 e2
    rw [e1, e2]
    rw [List.getD_eq_getElem _ _ (by omega : i < (sample.map Prod.fst).length),
      List.getD_eq_getElem _ _ (by omega : i < (sample.map Prod.snd).length)]
    simp

/-! ## C10: stretching warp factors degenerate to the identity -/

/-- C10 (amended): for every nonempty sample and every warp factor `w` with
`int(seq_length * w) ≥ seq_length` (in particular every `w ≥ 1`), the
time-warp augmentation returns the input sample unchanged: the node count
clamps to `seq_length`, the nodes degenerate to the original time steps,
and interpolation evaluated at its own nodes is the identity — so only
compressing factors (`int(seq_length * w) < seq_length`) can ever alter a
sample.  (The empty sample must be excluded: there the code raises, see the
counterexample.) -/
theorem timeWarp_identity_on_stretch (sample : Sample) (w : ℚ)
    (hL : 1 ≤ sample.length)
    (hw : sample.length ≤ ⌊(sample.length : ℚ) * w⌋.toNat) :
    timeWarpSample sample w = some sample := by
  have hm : warpNodeCount sample.length w = sample.length := min_eq_right hw
  have hne : ¬ warpNodeCount sample.length w = 0 := by omega
  unfold timeWarpSample
  rw [if_neg hne, hm, warpResample_id sample hL]

/-- C10 counterexample: at the empty sample (sequence length 0) with warp
factor 1 the claim's hypothesis `int(0 * 1) ≥ 0` holds, but the code raises
inside `np.interp` (the node array is empty) instead of returning the
sample unchanged. -/
theorem timeWarp_identity_empty_cex :
    timeWarpSample ([] : Sample) 1 = none ∧
      timeWarpSample ([] : Sample) 1 ≠ some ([] : Sample) := by
  have h : warpNodeCount 0 1 = 0 := by simp [warpNodeCount]
  constructor
  · simp [timeWarpSample, h]
  · simp [timeWarpSample, h]

/-- Concrete sample for the C10 witness. -/
def sampleC10 : Sample := [(1, 2), (3, 4)]

theorem timeWarp_identity_witness :
    timeWarpSample sampleC10 1 = some sampleC10 :=
  timeWarp_identity_on_stretch sampleC10 1 (by norm_num [sampleC10])
    (by norm_num [sampleC10])

/-! ## Segment permutation (`apply_augmentation` technique 4, lines 134–167) -/

/-- The segment boundary `np.linspace(0, L, n_segments+1, dtype=int)` at
index `i`: `floor(i * L / n_segments)` (the `dtype=int` cast truncates the
nonnegative float; rational arithmetic makes this exact). -/
def segPoint (L nSeg i : ℕ) : ℕ := i * L / nSeg

/-- The segments `sample[segment_points[i] : segment_points[i+1]]` of lines
145–148. -/
def segmentsOf (sample : Sample) (nSeg : ℕ) : List Sample :=
  (List.range nSeg).map (fun (i : ℕ) =>
    (sample.drop (segPoint sample.length nSeg i)).take
      (segPoint sample.length nSeg (i + 1) - segPoint sample.length nSeg i))

/-- Reassembly of the shuffled segments (lines 156–164): the writes into
`new_sample` fill it contiguously in the drawn order, and the boundary
points run from 0 to `L`, so this is concatenation in the drawn order. -/
def permuteSegments (sample : Sample) (nSeg : ℕ) (order : List ℕ) : Sample :=
  (order.map (fun (i : ℕ) => (segmentsOf sample nSeg).getD i [])).flatten

/-- The `while new_order == original_order: np.random.shuffle(new_order)`
loop of lines 150–154: its exit value is the first draw in the stream of
shuffle results that differs from the original order (`none` if the given
finite stream is exhausted — the real loop would keep drawing). -/
def drawOrder (orig : List ℕ) : List (List ℕ) → Option (List ℕ)
  | [] => none
  | d :: ds => if d = orig then drawOrder orig ds else some d

/-- The draw `np.random.randint(2, min(6, seq_length // 5))` (line 139) is
well-defined exactly when `low < high`; otherwise numpy raises
`ValueError`. -/
def nSegDrawOk (L : ℕ) : Prop := 2 < min 6 (L / 5)

instance nSegDrawOk.decidable (L : ℕ) : Decidable (nSegDrawOk L) :=
  inferInstanceAs (Decidable (2 < min 6 (L / 5)))

/-- The values the segment-count draw can return when it succeeds. -/
def nSegVal (L k : ℕ) : Prop := 2 ≤ k ∧ k < min 6 (L / 5)

/-! ## C3: the retry loop never exits with the identity order -/

/-- C3: whenever the reject-and-retry shuffle loop of the segment
permutation terminates (with at least two segments, so that a non-identity
ordering exists), the ordering it returns differs from the original
ordering — the permuted sample is never assembled in the identity order. -/
theorem drawOrder_never_identity (orig : List ℕ) (draws : List (List ℕ))
    (h2 : 2 ≤ orig.length) (o : List ℕ) (h : drawOrder orig draws = some o) :
    o ≠ orig := by
  induction draws with
  | nil => exact absurd h (by simp [drawOrder])
  | cons d ds ih =>
    simp only [drawOrder] at h
    by_cases hd : d = orig
    · rw [if_pos hd] at h
      exact ih h
    · rw [if_neg hd] at h
      have : d = o := by simpa using h
      subst this
      exact hd

theorem drawOrder_never_identity_witness :
    drawOrder [0, 1] [[0, 1], [1, 0]] = some [1, 0] ∧ [1, 0] ≠ [0, 1] :=
  ⟨by decide,
   drawOrder_never_identity [0, 1] [[0, 1], [1, 0]] (by decide) [1, 0] (by decide)⟩

/-! ## C6: the segment-count draw -/

/-- C6 (amended): for every sequence length of at least 15, the segment
count draw `np.random.randint(2, min(6, seq_length // 5))` is well-defined
(its error branch is unreachable) and every value it can return lies
between 2 and 5 inclusive.  For sequence lengths below 15 the permutation
technique raises `ValueError` whenever it is attempted, see the
counterexample. -/
theorem nSegDraw_safe (L k : ℕ) (hL : 15 ≤ L) (hk : nSegVal L k) :
    nSegDrawOk L ∧ 2 ≤ k ∧ k ≤ 5 := by
  unfold nSegDrawOk
  unfold nSegVal at hk
  omega

theorem nSegDraw_safe_witness : nSegDrawOk 15 ∧ 2 ≤ 2 ∧ 2 ≤ 5 :=
  nSegDraw_safe 15 2 (by omega) (by unfold nSegVal; omega)

/-! ## `apply_augmentation` (`model.py` lines 60–173) -/

/-- One iteration of the magnitude-warp technique (lines 107–118): each
feature channel is scaled by its own drawn factor. -/
def magScaleSample (sample : Sample) (sx sy : ℚ) : Sample :=
  sample.map (fun p => (p.1 * sx, p.2 * sy))

/-- One iteration of the jitter technique (lines 121–131): the drawn noise
array is added entrywise. -/
def jitterSample (sample : Sample) (noise : ℕ → ℚ × ℚ) : Sample :=
  (List.range sample.length).map (fun (t : ℕ) =>
    ((sample.getD t (0, 0)).1 + (noise t).1, (sample.getD t (0, 0)).2 + (noise t).2))

/-- The random draws consumed by one run of `apply_augmentation`: iteration
`t` of each technique reads its own draws.  `permOrder t` stands for the
exit value of the reject-and-retry shuffle loop (modelled on its own by
`drawOrder`), which is a non-identity permutation of
`range (permSegs t)` whenever the loop exits. -/
structure AugDraws where
  warpIdx : ℕ → ℕ
  warpFactor : ℕ → ℚ
  magIdx : ℕ → ℕ
  magScaleX : ℕ → ℚ
  magScaleY : ℕ → ℚ
  jitIdx : ℕ → ℕ
  jitNoise : ℕ → ℕ → ℚ × ℚ
  permIdx : ℕ → ℕ
  permSegs : ℕ → ℕ
  permOrder : ℕ → List ℕ

/-- The count `samples_per_technique = int(n_samples * (augmentation_factor
- 1) / 4)` (line 80) seen as the iteration count of each technique's `for` loop:
`int()` of a nonnegative float is its floor, and Python's `range` of a
negative int yields no iterations, which `Int.toNat` captures in one
step. -/
def sptCount (n : ℕ) (f : ℚ) : ℕ := (⌊(n : ℚ) * (f - 1) / 4⌋).toNat

/-- Model of `apply_augmentation` over explicit draws `r`.  `X_augmented` starts as
`[X]`; each of the four techniques appends `samples_per_technique`
generated samples together with the label row of its source sample, and
the final `np.vstack` concatenates everything in technique order.  `none`
models a raised `ValueError`: either `np.interp` got an empty node array
inside time warping, or `np.random.randint(2, min(6, seq_length//5))` had
`low >= high` in the permutation loop (its bounds are checked before any
iteration uses the drawn value, and it is reached exactly when that loop
runs at least once, i.e. when `samples_per_technique > 0`). -/
def applyAugmentation (X : List Sample) (y : List LabelRow) (f : ℚ) (r : AugDraws) :
    Option (List Sample × List LabelRow) :=
  (optionMap (fun (t : ℕ) =>
      (timeWarpSample (X.getD (r.warpIdx t) []) (r.warpFactor t)).map
        (fun s => (s, y.getD (r.warpIdx t) [])))
    (List.range (sptCount X.length f))).bind (fun warpPairs =>
  if 0 < sptCount X.length f ∧ ¬ nSegDrawOk (X.headD []).length then none
  else
    some
      (X ++ (warpPairs.map Prod.fst ++
        ((List.range (sptCount X.length f)).map (fun (t : ℕ) =>
            magScaleSample (X.getD (r.magIdx t) []) (r.magScaleX t) (r.magScaleY t)) ++
          ((List.range (sptCount X.length f)).map (fun (t : ℕ) =>
              jitterSample (X.getD (r.jitIdx t) []) (r.jitNoise t)) ++
            (List.range (sptCount X.length f)).map (fun (t : ℕ) =>
              permuteSegments (X.getD (r.permIdx t) []) (r.permSegs t) (r.permOrder t))))),
       y ++ (warpPairs.map Prod.snd ++
        ((List.range (sptCount X.length f)).map (fun (t : ℕ) => y.getD (r.magIdx t) []) ++
          ((List.range (sptCount X.length f)).map (fun (t : ℕ) => y.getD (r.jitIdx t) []) ++
            (List.range (sptCount X.length f)).map (fun (t : ℕ) => y.getD (r.permIdx t) []))))))

/-! ## Helper lemmas for `apply_augmentation` -/

theorem warpNodeCount_pos (L : ℕ) (w : ℚ) (hL : 2 ≤ L) (hw1 : 4/5 ≤ w) :
    warpNodeCount L w ≠ 0 := by
  have hfloor : 1 ≤ ⌊(L : ℚ) * w⌋ := by
    apply Int.le_floor.mpr
    have h2 : (2 : ℚ) ≤ (L : ℚ) := by exact_mod_cast hL
    have hmul : (2 : ℚ) * (4/5) ≤ (L : ℚ) * w := by
      apply mul_le_mul h2 hw1 (by norm_num) (by positivity)
    push_cast
    linarith
  unfold warpNodeCount
  omega

theorem timeWarpSample_eq_some (sample : Sample) (w : ℚ)
    (hm : warpNodeCount sample.length w ≠ 0) :
    timeWarpSample sample w = some (warpResample sample (warpNodeCount sample.length w)) := by
  unfold timeWarpSample
  rw [if_neg hm]

theorem getD_append_add {α : Type} (l₁ l₂ : List α) (d : α) (t : ℕ) :
    (l₁ ++ l₂).getD (l₁.length + t) d = l₂.getD t d := by
  induction l₁ with
  | nil => simp
  | cons a l ih =>
    have h : (a :: l).length + t = (l.length + t) + 1 := by
      simp [List.length_cons]
      omega
    rw [h]
    simpa using ih

theorem getD_append_lt {α : Type} (l₂ : List α) (d : α) :
    ∀ (l₁ : List α) (t : ℕ), t < l₁.length → (l₁ ++ l₂).getD t d = l₁.getD t d := by
  intro l₁
  induction l₁ with
  | nil => intro t ht; simp at ht
  | cons a l ih =>
    intro t ht
    cases t with
    | zero => simp
    | succ t' =>
      have ht' : t' < l.length := by simpa using ht
      simpa using ih t' ht'

theorem getD_map_range {α : Type} (k : ℕ) (g : ℕ → α) (t : ℕ) (ht : t < k) (d : α) :
    ((List.range k).map g).getD t d = g t := by
  rw [List.getD_eq_getElem _ d (by simpa using ht)]
  rw [List.getElem_map, List.getElem_range]

theorem getD_four_blocks {α : Type} (y A B C D : List α) (d : α) (n sp t : ℕ)
    (hn : y.length = n)
    (hA : A.length = sp) (hB : B.length = sp) (hC : C.length = sp) (ht : t < sp) :
    ((y ++ (A ++ (B ++ (C ++ D)))).getD (n + t) d = A.getD t d) ∧
    ((y ++ (A ++ (B ++ (C ++ D)))).getD (n + sp + t) d = B.getD t d) ∧
    ((y ++ (A ++ (B ++ (C ++ D)))).getD (n + 2 * sp + t) d = C.getD t d) ∧
    ((y ++ (A ++ (B ++ (C ++ D)))).getD (n + 3 * sp + t) d = D.getD t d) := by
  subst hn
  refine ⟨?_, ?_, ?_, ?_⟩
  · rw [getD_append_add]
    exact getD_append_lt _ _ _ _ (by omega)
  · rw [Nat.add_assoc, getD_append_add,
      show sp + t = A.length + t from by rw [hA], getD_append_add]
    exact getD_append_lt _ _ _ _ (by omega)
  · rw [show y.length + 2 * sp + t = y.length + (sp + (sp + t)) from by omega,
      getD_append_add, show sp + (sp + t) = A.length + (sp + t) from by rw [hA],
      getD_append_add, show sp + t = B.length + t from by rw [hB], getD_append_add]
    exact getD_append_lt _ _ _ _ (by omega)
  · rw [show y.length + 3 * sp + t = y.length + (sp + (sp + (sp + t))) from by omega,
      getD_append_add, show sp + (sp + (sp + t)) = A.length + (sp + (sp + t)) from by rw [hA],
      getD_append_add, show sp + (sp + t) = B.length + (sp + t) from by rw [hB],
      getD_append_add, show sp + t = C.length + t from by rw [hC], getD_append_add]

/-! ## C2: sample count and label preservation of `apply_augmentation` -/

/-- C2 (amended): for every augmentation factor `f ≥ 1` and every input on
which `apply_augmentation` completes — sequence length at least 15, or
`floor(n*(f-1)/4) = 0` (otherwise the permutation technique's segment-count
draw, or for very short sequences `np.interp`, raises, and for `f < 1` the
claimed count formula is wrong, see the counterexample) — the returned
feature tensor has exactly `n + 4 * floor(n*(f-1)/4)` samples and the label
row of each augmented sample equals the label row of the source sample it
was derived from.  The hypotheses on `r` are exactly numpy's guarantees for
the draws `np.random.randint(0, n_samples)` and
`np.random.uniform(0.8, 1.2)`. -/
theorem applyAugmentation_count_and_labels
    (X : List Sample) (y : List LabelRow) (f : ℚ) (r : AugDraws)
    (hf : 1 ≤ f) (hy : y.length = X.length)
    (hsl : ∀ s ∈ X, s.length = (X.headD []).length)
    (hwi : ∀ t, t < sptCount X.length f → r.warpIdx t < X.length)
    (hwf : ∀ t, t < sptCount X.length f → 4/5 ≤ r.warpFactor t ∧ r.warpFactor t ≤ 6/5)
    (hmi : ∀ t, t < sptCount X.length f → r.magIdx t < X.length)
    (hji : ∀ t, t < sptCount X.length f → r.jitIdx t < X.length)
    (hpi : ∀ t, t < sptCount X.length f → r.permIdx t < X.length)
    (hdone : 15 ≤ (X.headD []).length ∨ sptCount X.length f = 0) :
    ∃ X' y', applyAugmentation X y f r = some (X', y') ∧
      (X'.length : ℤ) = X.length + 4 * ⌊(X.length : ℚ) * (f - 1) / 4⌋ ∧
      y'.length = X'.length ∧
      ∀ t, t < sptCount X.length f →
        y'.getD (X.length + t) [] = y.getD (r.warpIdx t) [] ∧
        y'.getD (X.length + sptCount X.length f + t) [] = y.getD (r.magIdx t) [] ∧
        y'.getD (X.length + 2 * sptCount X.length f + t) [] = y.getD (r.jitIdx t) [] ∧
        y'.getD (X.length + 3 * sptCount X.length f + t) [] = y.getD (r.permIdx t) [] := by
  have hcond : ¬ (0 < sptCount X.length f ∧ ¬ nSegDrawOk (X.headD []).length) := by
    rcases hdone with hL | h0
    · rintro ⟨-, hn⟩
      apply hn
      unfold nSegDrawOk
      omega
    · rintro ⟨hpos, -⟩
      omega
  have hwarp : optionMap (fun (t : ℕ) =>
      (timeWarpSample (X.getD (r.warpIdx t) []) (r.warpFactor t)).map
        (fun s => (s, y.getD (r.warpIdx t) [])))
      (List.range (sptCount X.length f)) =
      some ((List.range (sptCount X.length f)).map (fun (t : ℕ) =>
        (warpResample (X.getD (r.warpIdx t) [])
           (warpNodeCount (X.getD (r.warpIdx t) []).length (r.warpFactor t)),
         y.getD (r.warpIdx t) []))) := by
    apply optionMap_eq_some_map
    intro t ht
    have ht' : t < sptCount X.length f := List.mem_range.mp ht
    rcases hdone with hL | h0
    · have hmem : X.getD (r.warpIdx t) [] ∈ X := by
        rw [List.getD_eq_getElem _ _ (hwi t ht')]
        exact List.getElem_mem _
      have h2 : 2 ≤ (X.getD (r.warpIdx t) []).length := by
        rw [hsl _ hmem]
        omega
      rw [timeWarpSample_eq_some _ _ (warpNodeCount_pos _ _ h2 (hwf t ht').1)]
      rfl
    · omega
  have hsp : ((sptCount X.length f : ℕ) : ℤ) = ⌊(X.length : ℚ) * (f - 1) / 4⌋ := by
    unfold sptCount
    apply Int.toNat_of_nonneg
    apply Int.floor_nonneg.mpr
    apply div_nonneg
    · apply mul_nonneg (Nat.cast_nonneg _)
      linarith
    · norm_num
  unfold applyAugmentation
  rw [hwarp, Option.some_bind, if_neg hcond]
  refine ⟨_, _, rfl, ?_, ?_, ?_⟩
  · simp only [List.length_append, List.length_map, List.length_range]
    push_cast
    rw [← hsp]
    push_cast
    ring
  · simp only [List.length_append, List.length_map, List.length_range]
    omega
  · intro t ht
    have h4 := getD_four_blocks y
      ((((List.range (sptCount X.length f)).map (fun (t : ℕ) =>
          (warpResample (X.getD (r.warpIdx t) [])
             (warpNodeCount (X.getD (r.warpIdx t) []).length (r.warpFactor t)),
           y.getD (r.warpIdx t) [])))).map Prod.snd)
      ((List.range (sptCount X.length f)).map (fun (t : ℕ) => y.getD (r.magIdx t) []))
      ((List.range (sptCount X.length f)).map (fun (t : ℕ) => y.getD (r.jitIdx t) []))
      ((List.range (sptCount X.length f)).map (fun (t : ℕ) => y.getD (r.permIdx t) []))
      [] X.length (sptCount X.length f) t hy (by simp) (by simp) (by simp) ht
    obtain ⟨e1, e2, e3, e4⟩ := h4
    refine ⟨?_, ?_, ?_, ?_⟩
    · rw [e1, List.map_map, getD_map_range _ _ t ht]
      rfl
    · rw [e2, getD_map_range _ _ t ht]
    · rw [e3, getD_map_range _ _ t ht]
    · rw [e4, getD_map_range _ _ t ht]

/-- A concrete draw assignment: indices 0, warp factor 1, scale factors 1,
zero noise, 2 segments in swapped order. -/
def drawsTriv : AugDraws :=
  ⟨fun _ => 0, fun _ => 1, fun _ => 0, fun _ => 1, fun _ => 1, fun _ => 0,
   fun _ _ => (0, 0), fun _ => 0, fun _ => 2, fun _ => [1, 0]⟩

/-- Concrete input for the C2 witness: one sample of sequence length 15 and
factor 5, so each technique generates `floor(1*(5-1)/4) = 1` sample. -/
def XC2 : List Sample := [List.replicate 15 ((0 : ℚ), (0 : ℚ))]

def yC2 : List LabelRow := [[1, 0]]

theorem applyAugmentation_count_witness :
    ∃ X' y', applyAugmentation XC2 yC2 5 drawsTriv = some (X', y') ∧
      (X'.length : ℤ) = XC2.length + 4 * ⌊(XC2.length : ℚ) * (5 - 1) / 4⌋ ∧
      y'.length = X'.length ∧
      ∀ t, t < sptCount XC2.length 5 →
        y'.getD (XC2.length + t) [] = yC2.getD (drawsTriv.warpIdx t) [] ∧
        y'.getD (XC2.length + sptCount XC2.length 5 + t) [] =
          yC2.getD (drawsTriv.magIdx t) [] ∧
        y'.getD (XC2.length + 2 * sptCount XC2.length 5 + t) [] =
          yC2.getD (drawsTriv.jitIdx t) [] ∧
        y'.getD (XC2.length + 3 * sptCount XC2.length 5 + t) [] =
          yC2.getD (drawsTriv.permIdx t) [] :=
  applyAugmentation_count_and_labels XC2 yC2 5 drawsTriv (by norm_num)
    (by simp [XC2, yC2])
    (by intro s hs; simp [XC2] at hs; simp [hs, XC2])
    (by intro t _; simp [drawsTriv, XC2])
    (by intro t _; constructor <;> norm_num [drawsTriv])
    (by intro t _; simp [drawsTriv, XC2])
    (by intro t _; simp [drawsTriv, XC2])
    (by intro t _; simp [drawsTriv, XC2])
    (by left; simp [XC2])

/-- Concrete input for the C2 counterexample: one sample, factor 0. -/
def XC2n : List Sample := [[(0, 0)]]

def yC2n : List LabelRow := [[1]]

/-- C2 counterexample: with `n = 1` and augmentation factor `f = 0`,
`int(1*(0-1)/4) = int(-0.25) = 0`, so no technique loop runs and
`apply_augmentation` returns the original single sample — but the claimed
count `n + 4*floor(n*(f-1)/4) = 1 + 4*(-1) = -3` does not equal 1: the
claimed formula fails for factors below 1. -/
theorem applyAugmentation_count_cex :
    applyAugmentation XC2n yC2n 0 drawsTriv = some (XC2n, yC2n) ∧
      ¬ ((XC2n.length : ℤ) = XC2n.length + 4 * ⌊(XC2n.length : ℚ) * (0 - 1) / 4⌋) := by
  constructor
  · have hspt : sptCount XC2n.length 0 = 0 := by
      norm_num [sptCount, XC2n]
    unfold applyAugmentation
    rw [hspt]
    simp [optionMap]
  · have h1 : XC2n.length = 1 := by simp [XC2n]
    rw [h1]
    norm_num

/-! ## C9: the originals are appended to, never replaced -/

/-- C9: whenever `apply_augmentation` returns a pair of tensors, their first
`n` rows are exactly the original `X` and `y` unchanged — every augmented
sample is appended after the originals. -/
theorem applyAugmentation_keeps_originals (X : List Sample) (y : List LabelRow)
    (f : ℚ) (r : AugDraws) (Xout : List Sample) (yout : List LabelRow)
    (h : applyAugmentation X y f r = some (Xout, yout)) :
    Xout.take X.length = X ∧ yout.take y.length = y := by
  unfold applyAugmentation at h
  cases hw : optionMap (fun (t : ℕ) =>
      (timeWarpSample (X.getD (r.warpIdx t) []) (r.warpFactor t)).map
        (fun s => (s, y.getD (r.warpIdx t) [])))
      (List.range (sptCount X.length f)) with
  | none =>
    rw [hw] at h
    simp at h
  | some warpPairs =>
    rw [hw, Option.some_bind] at h
    by_cases hc : 0 < sptCount X.length f ∧ ¬ nSegDrawOk (X.headD []).length
    · rw [if_pos hc] at h
      simp at h
    · rw [if_neg hc] at h
      have h' := Option.some.inj h
      rw [Prod.mk.injEq] at h'
      obtain ⟨hx, hyy⟩ := h'
      subst hx
      subst hyy
      exact ⟨List.take_left _ _, List.take_left _ _⟩

/-- Concrete input for the C9 witness. -/
def XC9 : List Sample := [[(2, 3)]]

def yC9 : List LabelRow := [[1, 0]]

theorem applyAugmentation_keeps_originals_witness :
    XC9.take XC9.length = XC9 ∧ yC9.take yC9.length = yC9 :=
  applyAugmentation_keeps_originals XC9 yC9 1 drawsTriv XC9 yC9 (by
    have hspt : sptCount XC9.length 1 = 0 := by
      norm_num [sptCount, XC9]
    unfold applyAugmentation
    rw [hspt]
    simp [optionMap])

/-- Concrete input for the C6 counterexample: one sample of sequence length
10 and factor 5, so the permutation technique runs once. -/
def XC6 : List Sample := [List.replicate 10 ((0 : ℚ), (0 : ℚ))]

def yC6 : List LabelRow := [[1]]

/-- C6 counterexample: at sequence length 10 the permutation technique is
attempted (`samples_per_technique = 1`), time warping itself succeeds, but
`np.random.randint(2, min(6, 10 // 5)) = np.random.randint(2, 2)` has
`low >= high` and raises `ValueError`: the error branch of the
segment-count draw is reachable, and `apply_augmentation` returns nothing.
-/
theorem applyAugmentation_segment_draw_cex :
    applyAugmentation XC6 yC6 5 drawsTriv = none ∧ ¬ nSegDrawOk 10 := by
  have hseg : ¬ nSegDrawOk 10 := by
    unfold nSegDrawOk
    omega
  refine ⟨?_, hseg⟩
  have hspt : sptCount XC6.length 5 = 1 := by
    norm_num [sptCount, XC6]
  have hwn : warpNodeCount (XC6.getD (drawsTriv.warpIdx 0) []).length
      (drawsTriv.warpFactor 0) ≠ 0 := by
    norm_num [XC6, drawsTriv, warpNodeCount]
  unfold applyAugmentation
  rw [hspt]
  have hrange : List.range 1 = [0] := by decide
  rw [hrange]
  simp only [optionMap]
  rw [timeWarpSample_eq_some _ _ hwn]
  simp [XC6, hseg]

/-! ## `create_data_generator` (`model.py` lines 255–331) -/

/-- The batch-slicing loop of the generator body,
`for i in range(0, n_samples, batch_size): indices[i:i+batch_size]`,
written with an explicit fuel argument (instantiated with the list length)
so that the definition is structural and reduces by computation.  Each
step consumes at least one element, so fuel equal to the list length is
never exhausted.  Python raises `ValueError` for `batch_size = 0` (zero
`range` step); every theorem below assumes `1 ≤ batch_size`. -/
def batchSlices (b : ℕ) : ℕ → List ℕ → List (List ℕ)
  | _, [] => []
  | 0, _ :: _ => []
  | fuel + 1, x :: xs => ((x :: xs).take b) :: batchSlices b fuel (xs.drop (b - 1))

/-- One full pass of `create_data_generator`'s inner loop (lines 275–277)
over the reshuffled index list `perm`: the successive slices
`indices[i:i+batch_size]`.  The reshuffle (line 273) enters through the
hypothesis that `perm` is a permutation of `range n`. -/
def generatorBatches (perm : List ℕ) (b : ℕ) : List (List ℕ) :=
  batchSlices b perm.length perm

theorem batchSlices_join (m : ℕ) :
    ∀ (fuel : ℕ) (l : List ℕ), l.length ≤ fuel →
      (batchSlices (m + 1) fuel l).flatten = l := by
  intro fuel
  induction fuel with
  | zero =>
    intro l hl
    cases l with
    | nil => rfl
    | cons x xs => simp at hl
  | succ fuel ih =>
    intro l hl
    cases l with
    | nil => rfl
    | cons x xs =>
      simp only [batchSlices, Nat.add_sub_cancel, List.flatten_cons]
      rw [ih (xs.drop m) (by rw [List.length_drop]; simp at hl; omega)]
      rw [List.take_succ_cons]
      simp [List.take_append_drop]

theorem batchSlices_le (m : ℕ) :
    ∀ (fuel : ℕ) (l : List ℕ), l.length ≤ fuel →
      ∀ c ∈ batchSlices (m + 1) fuel l, c.length ≤ m + 1 := by
  intro fuel
  induction fuel with
  | zero =>
    intro l hl c hc
    cases l with
    | nil => simp [batchSlices] at hc
    | cons x xs => simp at hl
  | succ fuel ih =>
    intro l hl c hc
    cases l with
    | nil => simp [batchSlices] at hc
    | cons x xs =>
      simp only [batchSlices, Nat.add_sub_cancel] at hc
      rcases List.mem_cons.mp hc with h | h
      · subst h
        simp only [List.length_take]
        omega
      · exact ih (xs.drop m) (by rw [List.length_drop]; simp at hl; omega) c h

theorem batchSlices_eq_nil (m fuel : ℕ) :
    batchSlices (m + 1) fuel [] = [] := by
  cases fuel <;> rfl

theorem batchSlices_dropLast (m : ℕ) :
    ∀ (fuel : ℕ) (l : List ℕ), l.length ≤ fuel →
      ∀ c ∈ (batchSlices (m + 1) fuel l).dropLast, c.length = m + 1 := by
  intro fuel
  induction fuel with
  | zero =>
    intro l hl c hc
    cases l with
    | nil => simp [batchSlices] at hc
    | cons x xs => simp at hl
  | succ fuel ih =>
    intro l hl c hc
    cases l with
    | nil => simp [batchSlices] at hc
    | cons x xs =>
      simp only [batchSlices, Nat.add_sub_cancel] at hc
      cases hxd : xs.drop m with
      | nil =>
        rw [hxd, batchSlices_eq_nil] at hc
        simp at hc
      | cons r rs =>
        have hlen : m < xs.length := by
          by_contra hcon
          have : xs.drop m = [] := List.drop_eq_nil_of_le (by omega)
          rw [this] at hxd
          cases hxd
        have hfuel : (xs.drop m).length ≤ fuel := by
          rw [List.length_drop]
          simp at hl
          omega
        have hne : batchSlices (m + 1) fuel (xs.drop m) ≠ [] := by
          rw [hxd]
          cases fuel with
          | zero =>
            exfalso
            rw [hxd] at hfuel
            simp at hfuel
          | succ fuel' => simp [batchSlices]
        rw [List.dropLast_cons_of_ne_nil hne] at hc
        rcases List.mem_cons.mp hc with h | h
        · subst h
          simp only [List.length_take, List.length_cons]
          omega
        · exact ih (xs.drop m) hfuel c h

theorem batchSlices_dvd (m : ℕ) :
    ∀ (fuel : ℕ) (l : List ℕ), l.length ≤ fuel → (m + 1) ∣ l.length →
      ∀ c ∈ batchSlices (m + 1) fuel l, c.length = m + 1 := by
  intro fuel
  induction fuel with
  | zero =>
    intro l hl _ c hc
    cases l with
    | nil => simp [batchSlices] at hc
    | cons x xs => simp at hl
  | succ fuel ih =>
    intro l hl hdvd c hc
    cases l with
    | nil => simp [batchSlices] at hc
    | cons x xs =>
      have hge : m + 1 ≤ (x :: xs).length := by
        rcases hdvd with ⟨k, hk⟩
        cases k with
        | zero => simp at hk
        | succ k' =>
          rw [hk]
          have : 1 ≤ k' + 1 := by omega
          calc m + 1 = (m + 1) * 1 := by ring
          _ ≤ (m + 1) * (k' + 1) := by
              apply Nat.mul_le_mul_left
              omega
      simp only [batchSlices, Nat.add_sub_cancel] at hc
      rcases List.mem_cons.mp hc with h | h
      · subst h
        simp only [List.length_take, List.length_cons]
        simp only [List.length_cons] at hge
        omega
      · have hxl : (xs.drop m).length ≤ fuel := by
          rw [List.length_drop]
          simp at hl
          omega
        have hdvd' : (m + 1) ∣ (xs.drop m).length := by
          rw [List.length_drop]
          have : xs.length - m = (x :: xs).length - (m + 1) := by
            simp
          rw [this]
          exact Nat.dvd_sub' hdvd (dvd_refl _)
        exact ih (xs.drop m) hxl hdvd' c h

/-! ## C8: one epoch of the online batch generator -/

/-- C8 (amended): on each full pass the generator reshuffles the full index
set (any permutation `perm` of `range n`) and yields the successive slices
`indices[i:i+batch_size]`: their concatenation is exactly the reshuffled
index list — so together they cover all `n` indices — every yielded batch
has size at most `b`, every batch except possibly the last has size exactly
`b`, and when `b` divides `n` every batch has size exactly `b`.  The
claim's "slices of size exactly `b`" fails for the final slice when `b`
does not divide `n`, see the counterexample. -/
theorem generatorBatches_cover (n b : ℕ) (hb : 1 ≤ b) (perm : List ℕ)
    (hp : perm.Perm (List.range n)) :
    (generatorBatches perm b).flatten.Perm (List.range n) ∧
    (∀ c ∈ (generatorBatches perm b).dropLast, c.length = b) ∧
    (∀ c ∈ generatorBatches perm b, c.length ≤ b) ∧
    (b ∣ n → ∀ c ∈ generatorBatches perm b, c.length = b) := by
  obtain ⟨m, rfl⟩ : ∃ m, b = m + 1 := ⟨b - 1, by omega⟩
  have hjoin : (generatorBatches perm (m + 1)).flatten = perm :=
    batchSlices_join m perm.length perm le_rfl
  have hlen : perm.length = n := by
    have := hp.length_eq
    simpa using this
  refine ⟨?_, ?_, ?_, ?_⟩
  · rw [hjoin]
    exact hp
  · exact batchSlices_dropLast m perm.length perm le_rfl
  · exact batchSlices_le m perm.length perm le_rfl
  · intro hdvd
    exact batchSlices_dvd m perm.length perm le_rfl (by rw [hlen]; exact hdvd)

/-- C8 counterexample: with `n = 3` indices and batch size 2 the pass
yields `[[0, 1], [2]]` — the final slice has size 1, not the claimed fixed
size 2. -/
theorem generatorBatches_last_short_cex :
    generatorBatches [0, 1, 2] 2 = [[0, 1], [2]] ∧
      ¬ ∀ c ∈ generatorBatches [0, 1, 2] 2, c.length = 2 := by
  constructor
  · decide
  · decide

theorem generatorBatches_cover_witness :
    ((generatorBatches [2, 0, 1] 2).flatten.Perm (List.range 3) ∧
      (∀ c ∈ (generatorBatches [2, 0, 1] 2).dropLast, c.length = 2) ∧
      (∀ c ∈ generatorBatches [2, 0, 1] 2, c.length ≤ 2) ∧
      (2 ∣ 3 → ∀ c ∈ generatorBatches [2, 0, 1] 2, c.length = 2)) :=
  generatorBatches_cover 3 2 (by omega) [2, 0, 1] (by decide)
